import Mathlib

set_option maxHeartbeats 1000000

/-!
Verification of the hierarchical TTL cache `NodeCache` (src/index.ts).

The cache owns two coupled structures: a value tree (`store`, a nested
JavaScript object keyed by colon-delimited path segments) and a key index
(`keys`, a `Set<string>` of every inserted path together with all of its
prefixes).  `set`/`get`/`delete` split the key on `':'` and walk the tree;
`delete` additionally prunes the index by string matching; `set` may arm a
`setTimeout` that later calls `delete`.

The embedding below models JavaScript values as either objects (ordered
association lists with unique property names) or opaque primitives, and is
faithful to JavaScript evaluation of the source, in particular:
 - `part in current` throws a `TypeError` when `current` is a primitive;
 - property assignment `current[part] = v` on a primitive throws a
   `TypeError` (class bodies are strict-mode code);
 - `delete current[part]` on a primitive is a silent no-op;
 - `String.prototype.split(':')` never returns an empty array and its
   segments never contain `':'`.
-/

/-- Model of a JavaScript runtime value as stored in the cache: an object
(a mapping from property names to values, modelled as an insertion-ordered
association list with unique keys, which is how JS objects behave) or a
primitive (non-object) payload whose identity is abstracted as a `Nat`.
The source only ever inspects values to the extent of walking properties,
so only the object/primitive distinction and property maps matter. -/
inductive JVal where
  | vobj : List (String × JVal) → JVal
  | vprim : Nat → JVal

/-- Model of reading property `p` of a JS object (`current[part]`), and of
the `part in current` membership test (`isSome`). -/
def getProp : List (String × JVal) → String → Option JVal
  | [], _ => none
  | (k, w) :: rest, p => if k = p then some w else getProp rest p

/-- Model of the property assignment `obj[p] = v`: overwrites the existing
binding in place, or appends a new binding at the end (JS insertion
order). -/
def setProp : List (String × JVal) → String → JVal → List (String × JVal)
  | [], p, v => [(p, v)]
  | (k, w) :: rest, p, v =>
    if k = p then (p, v) :: rest else (k, w) :: setProp rest p v

/-- Model of `delete obj[p]`: removes the binding for `p` (JS object keys
are unique, so removing every match coincides with removing the one). -/
def delProp : List (String × JVal) → String → List (String × JVal)
  | [], _ => []
  | (k, w) :: rest, p =>
    if k = p then delProp rest p else (k, w) :: delProp rest p

theorem getProp_setProp_self (props : List (String × JVal)) (p : String) (v : JVal) :
    getProp (setProp props p v) p = some v := by
  induction props with
  | nil => simp [setProp, getProp]
  | cons e rest ih =>
    obtain ⟨k, w⟩ := e
    by_cases h : k = p
    · simp [setProp, getProp, h]
    · simp [setProp, getProp, h, ih]

theorem getProp_setProp_ne (props : List (String × JVal)) (p q : String) (v : JVal)
    (h : q ≠ p) : getProp (setProp props p v) q = getProp props q := by
  induction props with
  | nil => simp [setProp, getProp, Ne.symm h]
  | cons e rest ih =>
    obtain ⟨k, w⟩ := e
    by_cases hk : k = p
    · subst hk
      simp [setProp, getProp, Ne.symm h]
    · by_cases hq : k = q
      · subst hq
        simp [setProp, getProp, hk]
      · simp [setProp, getProp, hk, hq, ih]

theorem getProp_delProp_self (props : List (String × JVal)) (p : String) :
    getProp (delProp props p) p = none := by
  induction props with
  | nil => simp [delProp, getProp]
  | cons e rest ih =>
    obtain ⟨k, w⟩ := e
    by_cases h : k = p
    · simp [delProp, h, ih]
    · simp [delProp, getProp, h, ih]

theorem getProp_delProp_ne (props : List (String × JVal)) (p q : String)
    (h : q ≠ p) : getProp (delProp props p) q = getProp props q := by
  induction props with
  | nil => simp [delProp]
  | cons e rest ih =>
    obtain ⟨k, w⟩ := e
    by_cases hk : k = p
    · subst hk
      simp [delProp, getProp, Ne.symm h, ih]
    · by_cases hq : k = q
      · subst hq
        simp [delProp, getProp, hk]
      · simp [delProp, getProp, hk, hq, ih]

theorem setProp_getProp_eq (props : List (String × JVal)) (p : String) (v : JVal)
    (h : getProp props p = some v) : setProp props p v = props := by
  induction props with
  | nil => simp [getProp] at h
  | cons e rest ih =>
    obtain ⟨k, w⟩ := e
    by_cases hk : k = p
    · subst hk
      simp [getProp] at h
      simp [setProp, h]
    · simp [getProp, hk] at h
      simp [setProp, hk, ih h]

theorem delProp_getProp_none (props : List (String × JVal)) (p : String)
    (h : getProp props p = none) : delProp props p = props := by
  induction props with
  | nil => simp [delProp]
  | cons e rest ih =>
    obtain ⟨k, w⟩ := e
    by_cases hk : k = p
    · simp [getProp, hk] at h
    · simp [getProp, hk] at h
      simp [delProp, hk, ih h]

/-- Model of JavaScript `str.split(':')` at the character-list level:
splits on every `':'`, keeping empty segments, and always returns at least
one segment (`"".split(':')` is `[""]`). -/
def splitCh : List Char → List (List Char)
  | [] => [[]]
  | c :: cs =>
    let r := splitCh cs
    if c = ':' then [] :: r
    else (c :: r.headD []) :: r.tail

/-- Model of JavaScript `segments.join(':')` at the character-list
level. -/
def joinCh : List (List Char) → List Char
  | [] => []
  | [s] => s
  | s :: ss => s ++ ':' :: joinCh ss

theorem splitCh_cons_colon (cs : List Char) : splitCh (':' :: cs) = [] :: splitCh cs := by
  simp [splitCh]

theorem splitCh_cons_ne (c : Char) (cs : List Char) (h : c ≠ ':') :
    splitCh (c :: cs) = (c :: (splitCh cs).headD []) :: (splitCh cs).tail := by
  simp [splitCh, h]

theorem splitCh_ne_nil (l : List Char) : splitCh l ≠ [] := by
  cases l with
  | nil => simp [splitCh]
  | cons c cs =>
    by_cases hc : c = ':'
    · subst hc
      simp [splitCh_cons_colon]
    · simp [splitCh_cons_ne c cs hc]

theorem joinCh_cons (s : List Char) (ss : List (List Char)) (h : ss ≠ []) :
    joinCh (s :: ss) = s ++ ':' :: joinCh ss := by
  cases ss with
  | nil => exact absurd rfl h
  | cons a as => rfl

theorem splitCh_append (x y : List Char) :
    splitCh (x ++ ':' :: y) = splitCh x ++ splitCh y := by
  induction x with
  | nil =>
    simp only [List.nil_append]
    rw [splitCh_cons_colon]
    rfl
  | cons c cs ih =>
    rw [List.cons_append]
    by_cases hc : c = ':'
    · subst hc
      rw [splitCh_cons_colon, splitCh_cons_colon, ih, List.cons_append]
    · rw [splitCh_cons_ne c _ hc, splitCh_cons_ne c _ hc, ih]
      cases hsp : splitCh cs with
      | nil => exact absurd hsp (splitCh_ne_nil cs)
      | cons a as => simp

theorem splitCh_no_colon (l : List Char) : ∀ s ∈ splitCh l, ':' ∉ s := by
  induction l with
  | nil =>
    intro s hs
    simp [splitCh] at hs
    simp [hs]
  | cons c cs ih =>
    intro s hs
    by_cases hc : c = ':'
    · subst hc
      rw [splitCh_cons_colon] at hs
      rcases List.mem_cons.mp hs with rfl | hs
      · simp
      · exact ih s hs
    · rw [splitCh_cons_ne c cs hc] at hs
      cases hsp : splitCh cs with
      | nil => exact absurd hsp (splitCh_ne_nil cs)
      | cons a as =>
        rw [hsp] at hs
        rcases List.mem_cons.mp hs with rfl | hs
        · intro hmem
          rcases List.mem_cons.mp hmem with hcc | hmem
          · exact hc hcc.symm
          · exact ih a (by simp [hsp]) (by simpa using hmem)
        · exact ih s (by simp [hsp, List.mem_cons.mpr (Or.inr (by simpa using hs))])

theorem splitCh_of_no_colon (l : List Char) (h : ':' ∉ l) : splitCh l = [l] := by
  induction l with
  | nil => rfl
  | cons c cs ih =>
    have hc : c ≠ ':' := fun hh => h (by simp [hh])
    have hcs : ':' ∉ cs := fun hh => h (by simp [hh])
    rw [splitCh_cons_ne c cs hc, ih hcs]
    rfl

theorem joinCh_splitCh (l : List Char) : joinCh (splitCh l) = l := by
  induction l with
  | nil => rfl
  | cons c cs ih =>
    by_cases hc : c = ':'
    · subst hc
      rw [splitCh_cons_colon, joinCh_cons _ _ (splitCh_ne_nil cs), ih]
      rfl
    · rw [splitCh_cons_ne c cs hc]
      cases hsp : splitCh cs with
      | nil => exact absurd hsp (splitCh_ne_nil cs)
      | cons a as =>
        rw [hsp] at ih
        cases as with
        | nil =>
          simp only [List.headD_cons, List.tail_cons]
          simp only [joinCh] at ih ⊢
          rw [ih]
        | cons b bs =>
          simp only [List.headD_cons, List.tail_cons]
          rw [joinCh_cons (c :: a) (b :: bs) (by simp)]
          rw [joinCh_cons a (b :: bs) (by simp)] at ih
          rw [← ih]
          simp

theorem splitCh_joinCh (ss : List (List Char)) (h : ss ≠ [])
    (h2 : ∀ s ∈ ss, ':' ∉ s) : splitCh (joinCh ss) = ss := by
  induction ss with
  | nil => exact absurd rfl h
  | cons s rest ih =>
    cases rest with
    | nil => exact splitCh_of_no_colon s (h2 s (by simp))
    | cons a as =>
      rw [joinCh_cons s (a :: as) (by simp), splitCh_append,
        splitCh_of_no_colon s (h2 s (by simp)),
        ih (by simp) (fun t ht => h2 t (List.mem_cons.mpr (Or.inr ht)))]
      rfl

/-- Model of JavaScript `key.split(':')` on strings. -/
def jsSplit (s : String) : List String := (splitCh s.data).map String.mk

/-- Model of JavaScript `segments.join(':')` on strings. -/
def joinStr (segs : List String) : String := String.mk (joinCh (segs.map String.data))

/-- Model of JavaScript `s.startsWith(t)`. -/
def jsStartsWith (s t : String) : Bool := t.data.isPrefixOf s.data

theorem jsSplit_ne_nil (s : String) : jsSplit s ≠ [] := by
  intro h
  exact splitCh_ne_nil s.data (List.map_eq_nil_iff.mp h)

theorem joinStr_jsSplit (s : String) : joinStr (jsSplit s) = s := by
  unfold joinStr jsSplit
  rw [List.map_map]
  have hid : (String.data ∘ String.mk) = id := funext fun l => rfl
  rw [hid, List.map_id, joinCh_splitCh]

theorem jsSplit_joinStr (segs : List String) (h : segs ≠ [])
    (h2 : ∀ s ∈ segs, ':' ∉ s.data) : jsSplit (joinStr segs) = segs := by
  unfold jsSplit joinStr
  have hd : (String.mk (joinCh (segs.map String.data))).data
      = joinCh (segs.map String.data) := rfl
  rw [hd, splitCh_joinCh (segs.map String.data)
      (fun hh => h (List.map_eq_nil_iff.mp hh))
      (by
        intro t ht
        rcases List.mem_map.mp ht with ⟨u, hu, rfl⟩
        exact h2 u hu)]
  rw [List.map_map]
  have hid : (String.mk ∘ String.data) = id := funext fun u => rfl
  rw [hid, List.map_id]

theorem jsSplit_no_colon (s : String) : ∀ t ∈ jsSplit s, ':' ∉ t.data := by
  intro t ht
  rcases List.mem_map.mp ht with ⟨u, hu, rfl⟩
  exact splitCh_no_colon s.data u hu

/-- State of one `NodeCache` instance (src/index.ts:15-20): the nested
value tree (`store`, a JS object), the key index (`keys`, a
`Set<string>`, modelled as its list of elements in insertion order), the
configured `options.ttl` (seconds; absent means entries do not expire by
default), and the multiset of pending `setTimeout` expirations armed by
`set`, as (key, delay in milliseconds) pairs; `debug` only produces log
output and is not modelled. -/
structure NodeCache where
  store : List (String × JVal)
  keys : List String
  ttl : Option Nat
  timers : List (String × Nat)

/-- Result of invoking a public method on the cache: either a normal
return with the resulting cache state, or a propagated JavaScript
`TypeError` (`threw`), which also leaves the cache in the state it had
reached when the error was raised. -/
inductive Outcome (α : Type) where
  | ok : α → NodeCache → Outcome α
  | threw : NodeCache → Outcome α

/-- Cache state after the call, whether or not it threw. -/
def Outcome.state {α : Type} : Outcome α → NodeCache
  | .ok _ c => c
  | .threw c => c

/-- True when the call completed without raising an error. -/
def Outcome.isOk {α : Type} : Outcome α → Bool
  | .ok _ _ => true
  | .threw _ => false

/-- Structural resolution of a path in the value tree: follow one property
per segment through mapping nodes, yielding the node the full path denotes
(if any).  This is the specification-side notion of a path denoting a
reachable node (mapping or leaf). -/
def resolveNode : JVal → List String → Option JVal
  | cur, [] => some cur
  | JVal.vobj props, p :: rest =>
    match getProp props p with
    | some child => resolveNode child rest
    | none => none
  | JVal.vprim _, _ :: _ => none

namespace NodeCache

/-- Model of `new NodeCache(options)` (src/index.ts:20): empty store and
index, no pending timers. -/
def construct (ttl : Option Nat) : NodeCache :=
  { store := [], keys := [], ttl := ttl, timers := [] }

/-- Model of the tree-walking loop of `get` (src/index.ts:36-41): for each
part, evaluate `part in current` (throws — `none` — if `current` is a
primitive), return `undefined` (`some none`) if absent, else descend.
After the loop the reached node is returned. -/
def getWalk : JVal → List String → Option (Option JVal)
  | cur, [] => some (some cur)
  | JVal.vobj props, p :: rest =>
    match getProp props p with
    | none => some none
    | some child => getWalk child rest
  | JVal.vprim _, _ :: _ => none

/-- Model of the tree-walking `forEach` of `set` (src/index.ts:63-73): on
the last part, `current[part] = value` (throws — `none` — when `current`
is a primitive, as class bodies are strict-mode code); on intermediate
parts, `current[part] = {}` if absent, then descend (the `part in current`
test throws when `current` is a primitive).  A raised error leaves the
partially-walked tree exactly as it was, because creation of intermediate
`{}` nodes only happens below points where nothing existed, after which no
further step can throw. -/
def setWalk : JVal → List String → JVal → Option JVal
  | _, [], _ => none
  | cur, p :: rest, v =>
    match cur with
    | JVal.vprim _ => none
    | JVal.vobj props =>
      match rest with
      | [] => some (JVal.vobj (setProp props p v))
      | _ :: _ =>
        match getProp props p with
        | some child =>
          match setWalk child rest v with
          | some sub => some (JVal.vobj (setProp props p sub))
          | none => none
        | none =>
          match setWalk (JVal.vobj []) rest v with
          | some sub => some (JVal.vobj (setProp props p sub))
          | none => none

/-- Model of the walk of `delete` (src/index.ts:111-121): descend through
all but the last part, returning early (tree untouched) when a part is
absent, throwing (`none`) when `part in current` is evaluated on a
primitive; finally `delete current[last]`, a silent no-op when `current`
ended up being a primitive. -/
def delWalk : JVal → List String → Option JVal
  | _, [] => none
  | cur, p :: rest =>
    match rest with
    | [] =>
      match cur with
      | JVal.vobj props => some (JVal.vobj (delProp props p))
      | JVal.vprim n => some (JVal.vprim n)
    | _ :: _ =>
      match cur with
      | JVal.vprim _ => none
      | JVal.vobj props =>
        match getProp props p with
        | none => some (JVal.vobj props)
        | some child =>
          match delWalk child rest with
          | some child2 => some (JVal.vobj (setProp props p child2))
          | none => none

/-- Model of `Set.prototype.add`: no-op when the element is present, else
appended. -/
def setAdd (ks : List String) (s : String) : List String :=
  if s ∈ ks then ks else ks ++ [s]

/-- Model of `NodeCache.addKey` (src/index.ts:145-150): for every index
`i`, adds `parts.slice(0, i + 1).join(':')` to the key set. -/
def addKey (ks : List String) (key : String) : List String :=
  let parts := jsSplit key
  (List.range parts.length).foldl
    (fun acc i => setAdd acc (joinStr (parts.take (i + 1)))) ks

/-- Model of `NodeCache.deleteKey` (src/index.ts:157-162): removes from
the key set every element equal to `key` or starting with `key + ":"`. -/
def deleteKey (ks : List String) (key : String) : List String :=
  ks.filter (fun k => !(k == key || jsStartsWith k (key ++ ":")))

/-- Model of `NodeCache.get` (src/index.ts:28-47): miss when the key index
lacks the key; otherwise walk the value tree, returning `undefined` when a
part is absent and the reached node (value or sub-mapping) otherwise.  The
call never mutates the cache; `debug` logging is unmodelled observation. -/
def get (c : NodeCache) (key : String) : Outcome (Option JVal) :=
  if key ∈ c.keys then
    match getWalk (JVal.vobj c.store) (jsSplit key) with
    | some r => .ok r c
    | none => .threw c
  else .ok none c

/-- Truthiness of a JS number-or-undefined (`undefined` and `0` are
falsy). -/
def truthyNum : Option Nat → Bool
  | none => false
  | some n => !(n == 0)

/-- Model of `NodeCache.set` (src/index.ts:56-90): `addKey` first, then
the tree walk; if it throws the key index keeps the added prefixes but the
tree is unchanged and no timer is armed (the `setTimeout` is never
reached).  On success, when `ttl || options.ttl` is truthy, a one-shot
timer for this key is armed with delay `(ttl ?? options.ttl) * 1000`
milliseconds. -/
def set (c : NodeCache) (key : String) (v : JVal) (ttl : Option Nat) : Outcome Unit :=
  let ks := addKey c.keys key
  match setWalk (JVal.vobj c.store) (jsSplit key) v with
  | none => .threw { c with keys := ks }
  | some (JVal.vprim _) => .ok () { c with keys := ks }
  | some (JVal.vobj props) =>
    let timers :=
      if truthyNum ttl || truthyNum c.ttl
      then c.timers ++ [(key, (ttl.getD (c.ttl.getD 0)) * 1000)]
      else c.timers
    .ok () { store := props, keys := ks, ttl := c.ttl, timers := timers }

/-- Model of `NodeCache.has` (src/index.ts:98): membership in the key
index only; the value tree is not consulted and nothing is mutated. -/
def has (c : NodeCache) (key : String) : Outcome Bool :=
  .ok (decide (key ∈ c.keys)) c

/-- Model of `NodeCache.delete` (src/index.ts:105-128): prune the key
index by string matching first (`deleteKey`), then excise the node at the
key's path from the value tree; a `TypeError` raised by the walk leaves
the pruned index and the untouched tree. -/
def delete (c : NodeCache) (key : String) : Outcome Unit :=
  let ks := deleteKey c.keys key
  match delWalk (JVal.vobj c.store) (jsSplit key) with
  | none => .threw { c with keys := ks }
  | some (JVal.vobj props) => .ok () { c with keys := ks, store := props }
  | some (JVal.vprim _) => .ok () { c with keys := ks }

/-- Model of `NodeCache.clear` (src/index.ts:133-138): empties both the
key index and the value tree; pending timers are not cancelled (no
cancellation primitive exists in the source). -/
def clear (c : NodeCache) : Outcome Unit :=
  .ok () { c with keys := [], store := [] }

/-- Firing of a pending TTL timer: the `setTimeout` callback
(src/index.ts:83-88) invokes `this.delete(key)`; the fired timer is no
longer pending. -/
def fire (c : NodeCache) (t : String × Nat) : Outcome Unit :=
  delete { c with timers := c.timers.erase t } t.1

/-- One public mutation of the store, for stating reachability: a `set`, a
`delete` (an explicit call or equally the deletion performed by a fired
TTL timer, which invokes the same logic), a timer firing, or a `clear`. -/
inductive Op where
  | opSet : String → JVal → Option Nat → Op
  | opDelete : String → Op
  | opFire : String → Nat → Op
  | opClear : Op

/-- State reached after one mutation (the state a thrown `TypeError`
leaves behind counts: the caller's cache object survives the exception). -/
def runOp (c : NodeCache) : Op → NodeCache
  | .opSet k v t => (set c k v t).state
  | .opDelete k => (delete c k).state
  | .opFire k d => (fire c (k, d)).state
  | .opClear => (clear c).state

/-- State reached after a sequence of mutations. -/
def runOps (c : NodeCache) : List Op → NodeCache
  | [] => c
  | op :: rest => runOps (runOp c op) rest

end NodeCache

theorem resolveNode_nil (cur : JVal) : resolveNode cur [] = some cur := by
  cases cur <;> rfl

theorem resolveNode_prim (n : Nat) (p : String) (rest : List String) :
    resolveNode (JVal.vprim n) (p :: rest) = none := rfl

theorem resolveNode_cons_found (props : List (String × JVal)) (p : String)
    (rest : List String) (child : JVal) (h : getProp props p = some child) :
    resolveNode (JVal.vobj props) (p :: rest) = resolveNode child rest := by
  simp [resolveNode, h]

theorem resolveNode_cons_missing (props : List (String × JVal)) (p : String)
    (rest : List String) (h : getProp props p = none) :
    resolveNode (JVal.vobj props) (p :: rest) = none := by
  simp [resolveNode, h]

namespace NodeCache

theorem getWalk_nil (cur : JVal) : getWalk cur [] = some (some cur) := by
  cases cur <;> rfl

theorem getWalk_prim (n : Nat) (p : String) (rest : List String) :
    getWalk (JVal.vprim n) (p :: rest) = none := rfl

theorem getWalk_cons_found (props : List (String × JVal)) (p : String)
    (rest : List String) (child : JVal) (h : getProp props p = some child) :
    getWalk (JVal.vobj props) (p :: rest) = getWalk child rest := by
  simp [getWalk, h]

theorem getWalk_cons_missing (props : List (String × JVal)) (p : String)
    (rest : List String) (h : getProp props p = none) :
    getWalk (JVal.vobj props) (p :: rest) = some none := by
  simp [getWalk, h]

theorem setWalk_nil (cur : JVal) (v : JVal) : setWalk cur [] v = none := by
  cases cur <;> rfl

theorem setWalk_prim (n : Nat) (p : String) (rest : List String) (v : JVal) :
    setWalk (JVal.vprim n) (p :: rest) v = none := rfl

theorem setWalk_last (props : List (String × JVal)) (p : String) (v : JVal) :
    setWalk (JVal.vobj props) [p] v = some (JVal.vobj (setProp props p v)) := rfl

theorem setWalk_cons_found (props : List (String × JVal)) (p q : String)
    (rest : List String) (v : JVal) (child : JVal) (h : getProp props p = some child) :
    setWalk (JVal.vobj props) (p :: q :: rest) v =
      match setWalk child (q :: rest) v with
      | some sub => some (JVal.vobj (setProp props p sub))
      | none => none := by
  simp [setWalk, h]

theorem setWalk_cons_missing (props : List (String × JVal)) (p q : String)
    (rest : List String) (v : JVal) (h : getProp props p = none) :
    setWalk (JVal.vobj props) (p :: q :: rest) v =
      match setWalk (JVal.vobj []) (q :: rest) v with
      | some sub => some (JVal.vobj (setProp props p sub))
      | none => none := by
  simp [setWalk, h]

theorem delWalk_nil (cur : JVal) : delWalk cur [] = none := by
  cases cur <;> rfl

theorem delWalk_last_obj (props : List (String × JVal)) (p : String) :
    delWalk (JVal.vobj props) [p] = some (JVal.vobj (delProp props p)) := rfl

theorem delWalk_last_prim (n : Nat) (p : String) :
    delWalk (JVal.vprim n) [p] = some (JVal.vprim n) := rfl

theorem delWalk_cons_prim (n : Nat) (p q : String) (rest : List String) :
    delWalk (JVal.vprim n) (p :: q :: rest) = none := rfl

theorem delWalk_cons_found (props : List (String × JVal)) (p q : String)
    (rest : List String) (child : JVal) (h : getProp props p = some child) :
    delWalk (JVal.vobj props) (p :: q :: rest) =
      match delWalk child (q :: rest) with
      | some child2 => some (JVal.vobj (setProp props p child2))
      | none => none := by
  simp [delWalk, h]

theorem delWalk_cons_missing (props : List (String × JVal)) (p q : String)
    (rest : List String) (h : getProp props p = none) :
    delWalk (JVal.vobj props) (p :: q :: rest) = some (JVal.vobj props) := by
  simp [delWalk, h]

/-- A successful `set` walk started at an object yields an object (the
root of the store is always a JS object). -/
theorem setWalk_root_obj (parts : List String) (props : List (String × JVal))
    (v : JVal) (r : JVal) (h : setWalk (JVal.vobj props) parts v = some r) :
    ∃ props2, r = JVal.vobj props2 := by
  cases parts with
  | nil => simp [setWalk_nil] at h
  | cons p rest =>
    cases rest with
    | nil =>
      rw [setWalk_last] at h
      exact ⟨setProp props p v, (Option.some_injective _ h).symm⟩
    | cons q rest2 =>
      cases hg : getProp props p with
      | none =>
        rw [setWalk_cons_missing props p q rest2 v hg] at h
        cases hs : setWalk (JVal.vobj []) (q :: rest2) v with
        | none => rw [hs] at h; simp at h
        | some sub =>
          rw [hs] at h
          simp at h
          exact ⟨setProp props p sub, h.symm⟩
      | some child =>
        rw [setWalk_cons_found props p q rest2 v child hg] at h
        cases hs : setWalk child (q :: rest2) v with
        | none => rw [hs] at h; simp at h
        | some sub =>
          rw [hs] at h
          simp at h
          exact ⟨setProp props p sub, h.symm⟩

/-- A successful `delete` walk started at an object yields an object. -/
theorem delWalk_root_obj (parts : List String) (props : List (String × JVal))
    (r : JVal) (h : delWalk (JVal.vobj props) parts = some r) :
    ∃ props2, r = JVal.vobj props2 := by
  cases parts with
  | nil => simp [delWalk_nil] at h
  | cons p rest =>
    cases rest with
    | nil =>
      rw [delWalk_last_obj] at h
      exact ⟨delProp props p, (Option.some_injective _ h).symm⟩
    | cons q rest2 =>
      cases hg : getProp props p with
      | none =>
        rw [delWalk_cons_missing props p q rest2 hg] at h
        exact ⟨props, (Option.some_injective _ h).symm⟩
      | some child =>
        rw [delWalk_cons_found props p q rest2 child hg] at h
        cases hs : delWalk child (q :: rest2) with
        | none => rw [hs] at h; simp at h
        | some child2 =>
          rw [hs] at h
          simp at h
          exact ⟨setProp props p child2, h.symm⟩

/-- A path that structurally resolves is returned as-is by the `get`
walk (in particular the walk cannot throw on it). -/
theorem getWalk_of_resolve (parts : List String) (cur r : JVal)
    (h : resolveNode cur parts = some r) : getWalk cur parts = some (some r) := by
  induction parts generalizing cur with
  | nil =>
    rw [resolveNode_nil] at h
    rw [getWalk_nil, Option.some_injective _ h]
  | cons p rest ih =>
    cases cur with
    | vprim n => rw [resolveNode_prim] at h; exact absurd h (by simp)
    | vobj props =>
      cases hg : getProp props p with
      | none => rw [resolveNode_cons_missing props p rest hg] at h; exact absurd h (by simp)
      | some child =>
        rw [resolveNode_cons_found props p rest child hg] at h
        rw [getWalk_cons_found props p rest child hg]
        exact ih child h

/-- After a successful `set` walk, the full path resolves to the stored
value. -/
theorem resolve_setWalk (parts : List String) (cur cur2 v : JVal)
    (h : setWalk cur parts v = some cur2) : resolveNode cur2 parts = some v := by
  induction parts generalizing cur cur2 with
  | nil => simp [setWalk_nil] at h
  | cons p rest ih =>
    cases cur with
    | vprim n => simp [setWalk_prim] at h
    | vobj props =>
      cases rest with
      | nil =>
        rw [setWalk_last] at h
        rw [← Option.some_injective _ h,
          resolveNode_cons_found _ p [] v (getProp_setProp_self props p v),
          resolveNode_nil]
      | cons q rest2 =>
        cases hg : getProp props p with
        | none =>
          rw [setWalk_cons_missing props p q rest2 v hg] at h
          cases hs : setWalk (JVal.vobj []) (q :: rest2) v with
          | none => rw [hs] at h; simp at h
          | some sub =>
            rw [hs] at h
            simp at h
            rw [← h, resolveNode_cons_found _ p _ sub (getProp_setProp_self props p sub)]
            exact ih _ sub hs
        | some child =>
          rw [setWalk_cons_found props p q rest2 v child hg] at h
          cases hs : setWalk child (q :: rest2) v with
          | none => rw [hs] at h; simp at h
          | some sub =>
            rw [hs] at h
            simp at h
            rw [← h, resolveNode_cons_found _ p _ sub (getProp_setProp_self props p sub)]
            exact ih child sub hs

end NodeCache

namespace NodeCache

/-- Resolution through an object updated at a property other than the
head of the path is resolution through the original object. -/
theorem resolve_setProp_ne (props : List (String × JVal)) (p q : String)
    (path2 : List String) (sub : JVal) (hqp : q ≠ p) :
    resolveNode (JVal.vobj (setProp props p sub)) (q :: path2)
      = resolveNode (JVal.vobj props) (q :: path2) := by
  cases hg : getProp props q with
  | none =>
    rw [resolveNode_cons_missing _ q path2
        (by rw [getProp_setProp_ne _ _ _ _ hqp]; exact hg),
      resolveNode_cons_missing _ q path2 hg]
  | some ch =>
    rw [resolveNode_cons_found _ q path2 ch
        (by rw [getProp_setProp_ne _ _ _ _ hqp]; exact hg),
      resolveNode_cons_found _ q path2 ch hg]

/-- Every path reachable after a successful `set` walk storing a primitive
value was reachable before, or is a prefix of the walked path (the nodes
`set` creates or overwrites all lie along its own path, and a stored
primitive has no reachable paths below it). -/
theorem setWalk_reach (parts : List String) (n : Nat) :
    ∀ (path : List String) (cur cur2 : JVal),
    setWalk cur parts (JVal.vprim n) = some cur2 →
    (resolveNode cur2 path).isSome = true →
    (resolveNode cur path).isSome = true ∨ path <+: parts := by
  induction parts with
  | nil => intro path cur cur2 h; simp [setWalk_nil] at h
  | cons p rest ih =>
    intro path cur cur2 h h2
    cases cur with
    | vprim m => simp [setWalk_prim] at h
    | vobj props =>
      cases rest with
      | nil =>
        rw [setWalk_last] at h
        replace h := Option.some_injective _ h
        cases path with
        | nil => left; simp [resolveNode_nil]
        | cons q path2 =>
          by_cases hqp : q = p
          · subst hqp
            rw [← h, resolveNode_cons_found _ q path2 (JVal.vprim n)
                (getProp_setProp_self props q (JVal.vprim n))] at h2
            cases path2 with
            | nil => right; exact List.prefix_refl _
            | cons x xs => rw [resolveNode_prim] at h2; simp at h2
          · left
            rw [← h, resolve_setProp_ne props p q path2 (JVal.vprim n) hqp] at h2
            exact h2
      | cons pq rest2 =>
        have hmain : ∀ (child sub : JVal), getProp props p = some child ∨ child = JVal.vobj [] →
            setWalk child (pq :: rest2) (JVal.vprim n) = some sub →
            cur2 = JVal.vobj (setProp props p sub) →
            (resolveNode (JVal.vobj props) path).isSome = true ∨ path <+: p :: pq :: rest2 := by
          intro child sub hchild hs hcur2
          cases path with
          | nil => left; simp [resolveNode_nil]
          | cons q path2 =>
            by_cases hqp : q = p
            · subst hqp
              rw [hcur2, resolveNode_cons_found _ q path2 sub
                  (getProp_setProp_self props q sub)] at h2
              rcases ih path2 child sub hs h2 with hres | hpre
              · rcases hchild with hg | rfl
                · left
                  rw [resolveNode_cons_found _ q path2 child hg]
                  exact hres
                · cases path2 with
                  | nil => right; exact List.cons_prefix_cons.mpr ⟨rfl, List.nil_prefix⟩
                  | cons x xs =>
                    rw [resolveNode_cons_missing _ x xs (by rfl)] at hres
                    simp at hres
              · right
                exact List.cons_prefix_cons.mpr ⟨rfl, hpre⟩
            · left
              rw [hcur2, resolve_setProp_ne props p q path2 sub hqp] at h2
              exact h2
        cases hg : getProp props p with
        | some child =>
          rw [setWalk_cons_found props p pq rest2 (JVal.vprim n) child hg] at h
          cases hs : setWalk child (pq :: rest2) (JVal.vprim n) with
          | none => rw [hs] at h; simp at h
          | some sub =>
            rw [hs] at h
            simp at h
            exact hmain child sub (Or.inl hg) hs h.symm
        | none =>
          rw [setWalk_cons_missing props p pq rest2 (JVal.vprim n) hg] at h
          cases hs : setWalk (JVal.vobj []) (pq :: rest2) (JVal.vprim n) with
          | none => rw [hs] at h; simp at h
          | some sub =>
            rw [hs] at h
            simp at h
            exact hmain (JVal.vobj []) sub (Or.inr rfl) hs h.symm

/-- The `delete` walk never makes a new path reachable: everything
reachable in its result was reachable before. -/
theorem delWalk_reach (parts : List String) :
    ∀ (path : List String) (cur cur2 : JVal),
    delWalk cur parts = some cur2 →
    (resolveNode cur2 path).isSome = true →
    (resolveNode cur path).isSome = true := by
  induction parts with
  | nil => intro path cur cur2 h; simp [delWalk_nil] at h
  | cons p rest ih =>
    intro path cur cur2 h h2
    cases cur with
    | vprim m =>
      cases rest with
      | nil =>
        rw [delWalk_last_prim] at h
        rw [← Option.some_injective _ h] at h2
        exact h2
      | cons pq rest2 => rw [delWalk_cons_prim] at h; simp at h
    | vobj props =>
      cases rest with
      | nil =>
        rw [delWalk_last_obj] at h
        replace h := Option.some_injective _ h
        cases path with
        | nil => simp [resolveNode_nil]
        | cons q path2 =>
          by_cases hqp : q = p
          · subst hqp
            rw [← h, resolveNode_cons_missing _ q path2
                (getProp_delProp_self props q)] at h2
            simp at h2
          · rw [← h] at h2
            cases hg : getProp props q with
            | none =>
              rw [resolveNode_cons_missing _ q path2
                  (by rw [getProp_delProp_ne _ _ _ hqp]; exact hg)] at h2
              simp at h2
            | some ch =>
              rw [resolveNode_cons_found _ q path2 ch
                  (by rw [getProp_delProp_ne _ _ _ hqp]; exact hg)] at h2
              rw [resolveNode_cons_found _ q path2 ch hg]
              exact h2
      | cons pq rest2 =>
        cases hg : getProp props p with
        | none =>
          rw [delWalk_cons_missing props p pq rest2 hg] at h
          rw [← Option.some_injective _ h] at h2
          exact h2
        | some child =>
          rw [delWalk_cons_found props p pq rest2 child hg] at h
          cases hs : delWalk child (pq :: rest2) with
          | none => rw [hs] at h; simp at h
          | some child2 =>
            rw [hs] at h
            simp at h
            cases path with
            | nil => simp [resolveNode_nil]
            | cons q path2 =>
              by_cases hqp : q = p
              · subst hqp
                rw [← h, resolveNode_cons_found _ q path2 child2
                    (getProp_setProp_self props q child2)] at h2
                rw [resolveNode_cons_found _ q path2 child hg]
                exact ih path2 child child2 hs h2
              · rw [← h, resolve_setProp_ne props p q path2 child2 hqp] at h2
                exact h2

/-- After `delete` has processed its path, neither the path itself nor any
extension of it resolves any more — whether the walk excised a node,
returned early because an ancestor was missing, ran into a primitive, or
threw (in the latter cases the tree is unchanged but the path was already
unresolvable). -/
theorem delWalk_kills (parts : List String) :
    ∀ (path : List String) (cur : JVal), parts ≠ [] → parts <+: path →
    (match delWalk cur parts with
     | some cur2 => resolveNode cur2 path
     | none => resolveNode cur path) = none := by
  induction parts with
  | nil => intro path cur hne; exact absurd rfl hne
  | cons p rest ih =>
    intro path cur _ hpre
    cases path with
    | nil => exact absurd (List.prefix_nil.mp hpre) (by simp)
    | cons q path2 =>
    rcases List.cons_prefix_cons.mp hpre with ⟨hq, hpre2⟩
    subst hq
    cases cur with
    | vprim m =>
      cases rest with
      | nil =>
        rw [delWalk_last_prim]
        exact resolveNode_prim m p path2
      | cons pq rest2 =>
        rw [delWalk_cons_prim]
        exact resolveNode_prim m p path2
    | vobj props =>
      cases rest with
      | nil =>
        rw [delWalk_last_obj]
        exact resolveNode_cons_missing _ p path2 (getProp_delProp_self props p)
      | cons pq rest2 =>
        cases hg : getProp props p with
        | none =>
          rw [delWalk_cons_missing props p pq rest2 hg]
          exact resolveNode_cons_missing _ p path2 hg
        | some child =>
          rw [delWalk_cons_found props p pq rest2 child hg]
          have hkill := ih path2 child (by simp) hpre2
          cases hs : delWalk child (pq :: rest2) with
          | none =>
            rw [hs] at hkill
            simp only
            rw [resolveNode_cons_found _ p path2 child hg]
            exact hkill
          | some child2 =>
            rw [hs] at hkill
            simp only
            rw [resolveNode_cons_found _ p path2 child2
                (getProp_setProp_self props p child2)]
            exact hkill

end NodeCache

/-- Strings with equal character data are equal. -/
theorem strData_inj {s t : String} (h : s.data = t.data) : s = t := by
  calc s = String.mk s.data := rfl
    _ = String.mk t.data := by rw [h]
    _ = t := rfl

namespace NodeCache

theorem mem_setAdd_self (ks : List String) (s : String) : s ∈ setAdd ks s := by
  unfold setAdd
  by_cases h : s ∈ ks
  · simp [h]
  · simp [h]

theorem mem_setAdd_of_mem (ks : List String) (s x : String) (h : x ∈ ks) :
    x ∈ setAdd ks s := by
  unfold setAdd
  by_cases hs : s ∈ ks
  · simpa [hs]
  · simp [hs, h]

theorem mem_foldl_setAdd (g : Nat → String) (l : List Nat) :
    ∀ (acc : List String) (x : String), x ∈ acc →
    x ∈ l.foldl (fun a i => setAdd a (g i)) acc := by
  induction l with
  | nil => intro acc x h; simpa using h
  | cons i rest ih =>
    intro acc x h
    exact ih (setAdd acc (g i)) x (mem_setAdd_of_mem acc (g i) x h)

theorem mem_foldl_setAdd_target (g : Nat → String) (l : List Nat) :
    ∀ (acc : List String) (i : Nat), i ∈ l →
    g i ∈ l.foldl (fun a i => setAdd a (g i)) acc := by
  induction l with
  | nil => intro acc i h; simp at h
  | cons j rest ih =>
    intro acc i h
    rcases List.mem_cons.mp h with rfl | h
    · exact mem_foldl_setAdd g rest (setAdd acc (g i)) (g i) (mem_setAdd_self acc (g i))
    · exact ih (setAdd acc (g j)) i h

/-- `addKey` never removes an index entry. -/
theorem addKey_mono (ks : List String) (key x : String) (h : x ∈ ks) :
    x ∈ addKey ks key :=
  mem_foldl_setAdd _ _ ks x h

/-- `addKey key` indexes the join of every nonempty prefix of the split
key. -/
theorem mem_addKey_take (ks : List String) (key : String) (m : Nat)
    (h1 : 1 ≤ m) (h2 : m ≤ (jsSplit key).length) :
    joinStr ((jsSplit key).take m) ∈ addKey ks key := by
  have hmem : m - 1 ∈ List.range (jsSplit key).length := by
    rw [List.mem_range]
    omega
  have := mem_foldl_setAdd_target
    (fun i => joinStr ((jsSplit key).take (i + 1)))
    (List.range (jsSplit key).length) ks (m - 1) hmem
  have hm : m - 1 + 1 = m := by omega
  simpa only [hm] using this

/-- `addKey` indexes the key itself. -/
theorem mem_addKey_self (ks : List String) (key : String) :
    key ∈ addKey ks key := by
  have hlen : 1 ≤ (jsSplit key).length :=
    List.length_pos.mpr (jsSplit_ne_nil key)
  have := mem_addKey_take ks key (jsSplit key).length hlen (le_refl _)
  rwa [List.take_length, joinStr_jsSplit] at this

/-- Membership after `deleteKey`: exactly the entries that are neither the
key nor an extension `key + ":" + …` survive. -/
theorem mem_deleteKey (ks : List String) (key k2 : String) :
    k2 ∈ deleteKey ks key ↔
      k2 ∈ ks ∧ ¬(k2 = key ∨ jsStartsWith k2 (key ++ ":") = true) := by
  unfold deleteKey
  rw [List.mem_filter]
  constructor
  · rintro ⟨h1, h2⟩
    refine ⟨h1, ?_⟩
    simp only [Bool.not_eq_true'] at h2
    rw [Bool.or_eq_false_iff] at h2
    rintro (rfl | hsw)
    · simp at h2
    · rw [h2.2] at hsw
      exact Bool.false_ne_true hsw
  · rintro ⟨h1, h2⟩
    refine ⟨h1, ?_⟩
    simp only [Bool.not_eq_true']
    rw [Bool.or_eq_false_iff]
    constructor
    · by_cases he : k2 = key
      · exact absurd (Or.inl he) h2
      · simpa using he
    · by_cases hs : jsStartsWith k2 (key ++ ":") = true
      · exact absurd (Or.inr hs) h2
      · simpa using hs

/-- Characterization of the `startsWith (key + ":")` test used by
`deleteKey`: it holds exactly of the strings of the form
`key + ":" + rest`. -/
theorem jsStartsWith_iff (s key : String) :
    jsStartsWith s (key ++ ":") = true ↔ ∃ r : String, s = key ++ ":" ++ r := by
  unfold jsStartsWith
  rw [List.isPrefixOf_iff_prefix]
  constructor
  · rintro ⟨t, ht⟩
    refine ⟨String.mk t, ?_⟩
    apply strData_inj
    rw [String.data_append, String.data_append]
    rw [String.data_append] at ht
    exact ht.symm
  · rintro ⟨r, rfl⟩
    refine ⟨r.data, ?_⟩
    simp [String.data_append]

/-- If the joined form of a colon-free nonempty segment list is the key or
an extension of `key + ":"`, then the split key is a (segment-level)
prefix of the list.  This connects the string matching of `deleteKey` to
tree paths. -/
theorem removed_imp_seg (key : String) (path : List String) (hne : path ≠ [])
    (hcf : ∀ s ∈ path, ':' ∉ s.data)
    (h : joinStr path = key ∨ jsStartsWith (joinStr path) (key ++ ":") = true) :
    jsSplit key <+: path := by
  rcases h with h | h
  · have : jsSplit key = path := by
      rw [← h, jsSplit_joinStr path hne hcf]
    rw [this]
  · rw [jsStartsWith_iff] at h
    obtain ⟨r, hr⟩ := h
    have hdata : joinCh (path.map String.data) = key.data ++ ':' :: r.data := by
      have h1 : (joinStr path).data = joinCh (path.map String.data) := rfl
      have h2 : (key ++ ":" ++ r).data = key.data ++ ':' :: r.data := by
        rw [String.data_append, String.data_append,
          show (":" : String).data = [':'] from rfl, List.append_assoc]
        rfl
      rw [← h1, hr, h2]
    have hsplit : path.map String.data = splitCh key.data ++ splitCh r.data := by
      have := splitCh_joinCh (path.map String.data)
        (fun hh => hne (List.map_eq_nil_iff.mp hh))
        (by
          intro t ht
          rcases List.mem_map.mp ht with ⟨u, hu, rfl⟩
          exact hcf u hu)
      rw [hdata, splitCh_append] at this
      exact this.symm
    refine ⟨(splitCh r.data).map String.mk, ?_⟩
    have : path = (path.map String.data).map String.mk := by
      rw [List.map_map]
      have hid : (String.mk ∘ String.data) = id := funext fun u => rfl
      rw [hid, List.map_id]
    rw [this, hsplit, List.map_append]
    rfl

/-- Bool-valued test for a primitive sitting at stage `j` of a path: the
walks of `get`, `set` and `delete` raise a `TypeError` precisely by
running into such a node. -/
def primAtB (cur : JVal) (parts : List String) (j : Nat) : Bool :=
  match resolveNode cur (parts.take j) with
  | some (JVal.vprim _) => true
  | _ => false

theorem primAtB_eq_true (cur : JVal) (parts : List String) (j : Nat) :
    primAtB cur parts j = true ↔
      ∃ n, resolveNode cur (parts.take j) = some (JVal.vprim n) := by
  unfold primAtB
  cases hres : resolveNode cur (parts.take j) with
  | none => simp
  | some r =>
    cases r with
    | vobj props => simp
    | vprim n => simp

theorem primAtB_zero_obj (props : List (String × JVal)) (parts : List String) :
    primAtB (JVal.vobj props) parts 0 = false := by
  unfold primAtB
  rw [List.take_zero, resolveNode_nil]

theorem primAtB_succ (props : List (String × JVal)) (p : String)
    (rest : List String) (j : Nat) (child : JVal)
    (h : getProp props p = some child) :
    primAtB (JVal.vobj props) (p :: rest) (j + 1) = primAtB child rest j := by
  unfold primAtB
  rw [List.take_succ_cons, resolveNode_cons_found props p _ child h]

end NodeCache

namespace NodeCache

theorem primAtB_zero_prim (n : Nat) (parts : List String) :
    primAtB (JVal.vprim n) parts 0 = true := by
  unfold primAtB
  rw [List.take_zero, resolveNode_nil]

/-- The `get` walk cannot throw when no stage of the path resolves to a
primitive. -/
theorem getWalk_no_throw (parts : List String) :
    ∀ cur : JVal, (∀ j, j < parts.length → primAtB cur parts j = false) →
    getWalk cur parts ≠ none := by
  induction parts with
  | nil => intro cur _; rw [getWalk_nil]; simp
  | cons p rest ih =>
    intro cur hcond
    cases cur with
    | vprim n =>
      have := hcond 0 (by simp)
      rw [primAtB_zero_prim] at this
      exact absurd this (by simp)
    | vobj props =>
      cases hg : getProp props p with
      | none => rw [getWalk_cons_missing props p rest hg]; simp
      | some child =>
        rw [getWalk_cons_found props p rest child hg]
        refine ih child ?_
        intro j hj
        have := hcond (j + 1) (by simpa using Nat.succ_lt_succ hj)
        rwa [primAtB_succ props p rest j child hg] at this

/-- The `set` walk on a path below a fresh empty object always
succeeds. -/
theorem setWalk_fresh (parts : List String) (v : JVal) (h : parts ≠ []) :
    ∃ r, setWalk (JVal.vobj []) parts v = some r := by
  induction parts with
  | nil => exact absurd rfl h
  | cons p rest ih =>
    cases rest with
    | nil => exact ⟨_, setWalk_last [] p v⟩
    | cons q rest2 =>
      obtain ⟨sub, hs⟩ := ih (by simp)
      rw [setWalk_cons_missing [] p q rest2 v rfl, hs]
      exact ⟨_, rfl⟩

/-- The `set` walk cannot throw when no stage of the (nonempty) path
resolves to a primitive. -/
theorem setWalk_no_throw (parts : List String) (v : JVal) :
    ∀ cur : JVal, parts ≠ [] →
    (∀ j, j < parts.length → primAtB cur parts j = false) →
    setWalk cur parts v ≠ none := by
  induction parts with
  | nil => intro cur hne; exact absurd rfl hne
  | cons p rest ih =>
    intro cur hne hcond
    cases cur with
    | vprim n =>
      have := hcond 0 (by simp)
      rw [primAtB_zero_prim] at this
      exact absurd this (by simp)
    | vobj props =>
      cases rest with
      | nil => rw [setWalk_last]; simp
      | cons q rest2 =>
        cases hg : getProp props p with
        | none =>
          rw [setWalk_cons_missing props p q rest2 v hg]
          obtain ⟨sub, hs⟩ := setWalk_fresh (q :: rest2) v (by simp)
          rw [hs]
          simp
        | some child =>
          rw [setWalk_cons_found props p q rest2 v child hg]
          have hsub : setWalk child (q :: rest2) v ≠ none := by
            refine ih child (by simp) ?_
            intro j hj
            have := hcond (j + 1) (by simpa using Nat.succ_lt_succ hj)
            rwa [primAtB_succ props p (q :: rest2) j child hg] at this
          cases hs : setWalk child (q :: rest2) v with
          | none => exact absurd hs hsub
          | some sub => simp

/-- The `delete` walk cannot throw when no stage of the path resolves to a
primitive. -/
theorem delWalk_no_throw (parts : List String) :
    ∀ cur : JVal, parts ≠ [] →
    (∀ j, j < parts.length → primAtB cur parts j = false) →
    delWalk cur parts ≠ none := by
  induction parts with
  | nil => intro cur hne; exact absurd rfl hne
  | cons p rest ih =>
    intro cur hne hcond
    cases rest with
    | nil =>
      cases cur with
      | vprim n => rw [delWalk_last_prim]; simp
      | vobj props => rw [delWalk_last_obj]; simp
    | cons q rest2 =>
      cases cur with
      | vprim n =>
        have := hcond 0 (by simp)
        rw [primAtB_zero_prim] at this
        exact absurd this (by simp)
      | vobj props =>
        cases hg : getProp props p with
        | none => rw [delWalk_cons_missing props p q rest2 hg]; simp
        | some child =>
          rw [delWalk_cons_found props p q rest2 child hg]
          have hsub : delWalk child (q :: rest2) ≠ none := by
            refine ih child (by simp) ?_
            intro j hj
            have := hcond (j + 1) (by simpa using Nat.succ_lt_succ hj)
            rwa [primAtB_succ props p (q :: rest2) j child hg] at this
          cases hs : delWalk child (q :: rest2) with
          | none => exact absurd hs hsub
          | some child2 => simp

/-- When a primitive does sit at a proper stage of the path, the `set`
walk throws: the scalar is not promoted to a mapping. -/
theorem setWalk_none_of_prim (parts : List String) :
    ∀ (cur v : JVal) (j : Nat), 1 ≤ j → j < parts.length →
    primAtB cur parts j = true → setWalk cur parts v = none := by
  induction parts with
  | nil => intro cur v j _ h2; simp at h2
  | cons p rest ih =>
    intro cur v j h1 h2 h3
    cases j with
    | zero => exact absurd h1 (by simp)
    | succ j2 =>
      obtain ⟨n, hres⟩ := (primAtB_eq_true cur (p :: rest) (j2 + 1)).mp h3
      rw [List.take_succ_cons] at hres
      cases cur with
      | vprim m => rw [setWalk_prim]
      | vobj props =>
        cases hg : getProp props p with
        | none =>
          rw [resolveNode_cons_missing props p _ hg] at hres
          simp at hres
        | some child =>
          rw [resolveNode_cons_found props p _ child hg] at hres
          cases rest with
          | nil => simp at h2
          | cons q rest2 =>
            rw [setWalk_cons_found props p q rest2 v child hg]
            cases j2 with
            | zero =>
              rw [List.take_zero, resolveNode_nil] at hres
              rw [Option.some_injective _ hres, setWalk_prim]
            | succ j3 =>
              have hnone : setWalk child (q :: rest2) v = none := by
                refine ih child v (j3 + 1) (by omega) (by simpa using h2) ?_
                exact (primAtB_eq_true child (q :: rest2) (j3 + 1)).mpr ⟨n, hres⟩
              rw [hnone]

/-- When the key's path does not resolve and crosses no primitive, the
`delete` walk finds nothing to excise and returns the tree unchanged. -/
theorem delWalk_id_of_unresolved (parts : List String) :
    ∀ props : List (String × JVal), parts ≠ [] →
    resolveNode (JVal.vobj props) parts = none →
    (∀ j, j < parts.length → primAtB (JVal.vobj props) parts j = false) →
    delWalk (JVal.vobj props) parts = some (JVal.vobj props) := by
  induction parts with
  | nil => intro props hne; exact absurd rfl hne
  | cons p rest ih =>
    intro props _ hres hcond
    cases rest with
    | nil =>
      cases hg : getProp props p with
      | none => rw [delWalk_last_obj, delProp_getProp_none props p hg]
      | some child =>
        rw [resolveNode_cons_found props p [] child hg, resolveNode_nil] at hres
        simp at hres
    | cons q rest2 =>
      cases hg : getProp props p with
      | none => exact delWalk_cons_missing props p q rest2 hg
      | some child =>
        rw [resolveNode_cons_found props p _ child hg] at hres
        cases child with
        | vprim n =>
          have := hcond 1 (by simp)
          rw [primAtB_succ props p (q :: rest2) 0 _ hg, primAtB_zero_prim] at this
          exact absurd this (by simp)
        | vobj cprops =>
          have hidc : delWalk (JVal.vobj cprops) (q :: rest2) = some (JVal.vobj cprops) := by
            refine ih cprops (by simp) hres ?_
            intro j hj
            have := hcond (j + 1) (by simpa using Nat.succ_lt_succ hj)
            rwa [primAtB_succ props p (q :: rest2) j _ hg] at this
          rw [delWalk_cons_found props p q rest2 _ hg, hidc]
          simp only
          rw [setProp_getProp_eq props p _ hg]

end NodeCache

namespace NodeCache

theorem set_eq_threw (c : NodeCache) (key : String) (v : JVal) (t : Option Nat)
    (h : setWalk (JVal.vobj c.store) (jsSplit key) v = none) :
    set c key v t = .threw { c with keys := addKey c.keys key } := by
  simp only [set, h]

theorem set_eq_ok (c : NodeCache) (key : String) (v : JVal) (t : Option Nat)
    (props : List (String × JVal))
    (h : setWalk (JVal.vobj c.store) (jsSplit key) v = some (JVal.vobj props)) :
    set c key v t = .ok ()
      { store := props, keys := addKey c.keys key, ttl := c.ttl,
        timers :=
          if truthyNum t || truthyNum c.ttl
          then c.timers ++ [(key, (t.getD (c.ttl.getD 0)) * 1000)]
          else c.timers } := by
  simp only [set, h]

theorem delete_eq_threw (c : NodeCache) (key : String)
    (h : delWalk (JVal.vobj c.store) (jsSplit key) = none) :
    delete c key = .threw { c with keys := deleteKey c.keys key } := by
  simp only [delete, h]

theorem delete_eq_ok (c : NodeCache) (key : String) (props : List (String × JVal))
    (h : delWalk (JVal.vobj c.store) (jsSplit key) = some (JVal.vobj props)) :
    delete c key = .ok () { c with keys := deleteKey c.keys key, store := props } := by
  simp only [delete, h]

/-- The direction of the index–tree synchronization invariant that the
code does maintain (for primitive stored values): every nonempty path
resolving to a reachable node of the value tree has colon-free segments
and its colon-join is a member of the key index. -/
def StInv (c : NodeCache) : Prop :=
  ∀ path : List String, path ≠ [] →
    (resolveNode (JVal.vobj c.store) path).isSome = true →
    (∀ s ∈ path, ':' ∉ s.data) ∧ joinStr path ∈ c.keys

theorem StInv_construct (t : Option Nat) : StInv (construct t) := by
  intro path hne hres
  cases path with
  | nil => exact absurd rfl hne
  | cons p path2 =>
    have hnone : resolveNode (JVal.vobj []) (p :: path2) = none :=
      resolveNode_cons_missing [] p path2 rfl
    have hres2 : (resolveNode (JVal.vobj []) (p :: path2)).isSome = true := hres
    rw [hnone] at hres2
    simp at hres2

theorem StInv_set (c : NodeCache) (key : String) (n : Nat) (t : Option Nat)
    (h : StInv c) : StInv (set c key (JVal.vprim n) t).state := by
  cases hw : setWalk (JVal.vobj c.store) (jsSplit key) (JVal.vprim n) with
  | none =>
    rw [set_eq_threw c key _ t hw]
    intro path hne hres
    obtain ⟨hcf, hmem⟩ := h path hne hres
    exact ⟨hcf, addKey_mono c.keys key _ hmem⟩
  | some r =>
    obtain ⟨props, rfl⟩ := setWalk_root_obj (jsSplit key) c.store (JVal.vprim n) r hw
    rw [set_eq_ok c key _ t props hw]
    intro path hne hres
    rcases setWalk_reach (jsSplit key) n path (JVal.vobj c.store) (JVal.vobj props)
        hw hres with hold | hpre
    · obtain ⟨hcf, hmem⟩ := h path hne hold
      exact ⟨hcf, addKey_mono c.keys key _ hmem⟩
    · have hlen1 : 1 ≤ path.length := List.length_pos.mpr hne
      have hlen2 : path.length ≤ (jsSplit key).length := hpre.length_le
      have htake : path = (jsSplit key).take path.length :=
        List.prefix_iff_eq_take.mp hpre
      constructor
      · intro s hs
        exact jsSplit_no_colon key s (hpre.subset hs)
      · rw [htake]
        exact mem_addKey_take c.keys key path.length hlen1 hlen2

theorem StInv_delete (c : NodeCache) (key : String) (h : StInv c) :
    StInv (delete c key).state := by
  cases hw : delWalk (JVal.vobj c.store) (jsSplit key) with
  | none =>
    rw [delete_eq_threw c key hw]
    intro path hne hres
    obtain ⟨hcf, hmem⟩ := h path hne hres
    refine ⟨hcf, (mem_deleteKey c.keys key _).mpr ⟨hmem, ?_⟩⟩
    intro hrem
    have hseg : jsSplit key <+: path := removed_imp_seg key path hne hcf hrem
    have hkill := delWalk_kills (jsSplit key) path (JVal.vobj c.store)
      (jsSplit_ne_nil key) hseg
    rw [hw] at hkill
    have hkill2 : resolveNode (JVal.vobj c.store) path = none := hkill
    have hres2 : (resolveNode (JVal.vobj c.store) path).isSome = true := hres
    rw [hkill2] at hres2
    simp at hres2
  | some r =>
    obtain ⟨props, rfl⟩ := delWalk_root_obj (jsSplit key) c.store r hw
    rw [delete_eq_ok c key props hw]
    intro path hne hres
    have hold : (resolveNode (JVal.vobj c.store) path).isSome = true :=
      delWalk_reach (jsSplit key) path (JVal.vobj c.store) (JVal.vobj props) hw hres
    obtain ⟨hcf, hmem⟩ := h path hne hold
    refine ⟨hcf, (mem_deleteKey c.keys key _).mpr ⟨hmem, ?_⟩⟩
    intro hrem
    have hseg : jsSplit key <+: path := removed_imp_seg key path hne hcf hrem
    have hkill := delWalk_kills (jsSplit key) path (JVal.vobj c.store)
      (jsSplit_ne_nil key) hseg
    rw [hw] at hkill
    have hkill2 : resolveNode (JVal.vobj props) path = none := hkill
    have hres2 : (resolveNode (JVal.vobj props) path).isSome = true := hres
    rw [hkill2] at hres2
    simp at hres2

theorem StInv_fire (c : NodeCache) (t : String × Nat) (h : StInv c) :
    StInv (fire c t).state :=
  StInv_delete { c with timers := c.timers.erase t } t.1 h

theorem StInv_clear (c : NodeCache) : StInv (clear c).state := by
  intro path hne hres
  cases path with
  | nil => exact absurd rfl hne
  | cons p path2 =>
    have hnone : resolveNode (JVal.vobj []) (p :: path2) = none :=
      resolveNode_cons_missing [] p path2 rfl
    have hres2 : (resolveNode (JVal.vobj []) (p :: path2)).isSome = true := hres
    rw [hnone] at hres2
    simp at hres2

theorem StInv_runOps (ops : List Op) :
    ∀ c : NodeCache, StInv c →
    (∀ k v t, Op.opSet k v t ∈ ops → ∃ n, v = JVal.vprim n) →
    StInv (runOps c ops) := by
  induction ops with
  | nil => intro c h _; exact h
  | cons op rest ih =>
    intro c h hprim
    refine ih (runOp c op) ?_ (fun k v t hm => hprim k v t (List.mem_cons.mpr (Or.inr hm)))
    cases op with
    | opSet k v t =>
      obtain ⟨n, rfl⟩ := hprim k v t (List.mem_cons.mpr (Or.inl rfl))
      exact StInv_set c k n t h
    | opDelete k => exact StInv_delete c k h
    | opFire k d => exact StInv_fire c (k, d) h
    | opClear => exact StInv_clear c

end NodeCache

/-- C1 (amended).  Original claim: a key path is in the key index iff it
resolves to a reachable node, preserved by every mutation.  The code only
maintains one direction; this theorem states it: in every store state
reachable from a fresh cache (any configured default TTL) by any sequence
of `set` storing non-mapping values, `delete`, timer-fired deletion, and
`clear`, every nonempty path that resolves to a reachable node of the
value tree has its colon-join present in the key index (and colon-free
segments).  The converse — indexed implies reachable — is refuted by
`C1_counterexample`: `set` overwriting a branch with a scalar keeps all
descendant index entries. -/
theorem C1_index_tree_sync (t0 : Option Nat) (ops : List NodeCache.Op)
    (hprim : ∀ k v t, NodeCache.Op.opSet k v t ∈ ops → ∃ n, v = JVal.vprim n) :
    NodeCache.StInv (NodeCache.runOps (NodeCache.construct t0) ops) :=
  NodeCache.StInv_runOps ops (NodeCache.construct t0) (NodeCache.StInv_construct t0) hprim

/-- C1 counterexample: on a fresh cache, `set("a:b", 1)` then
`set("a", 2)` both complete normally, yet afterwards `"a:b"` is still a
member of the key index while its path no longer resolves to any node of
the value tree — the claimed index–tree equivalence is not preserved by
`set`. -/
theorem C1_counterexample :
    (NodeCache.set (NodeCache.construct none) "a:b" (JVal.vprim 1) none).isOk = true
    ∧ (NodeCache.set
        (NodeCache.set (NodeCache.construct none) "a:b" (JVal.vprim 1) none).state
        "a" (JVal.vprim 2) none).isOk = true
    ∧ "a:b" ∈ (NodeCache.runOps (NodeCache.construct none)
        [NodeCache.Op.opSet "a:b" (JVal.vprim 1) none,
         NodeCache.Op.opSet "a" (JVal.vprim 2) none]).keys
    ∧ (resolveNode (JVal.vobj (NodeCache.runOps (NodeCache.construct none)
        [NodeCache.Op.opSet "a:b" (JVal.vprim 1) none,
         NodeCache.Op.opSet "a" (JVal.vprim 2) none]).store)
        (jsSplit "a:b")).isSome = false := by
  decide

/-- C1 witness: the amended invariant instantiated on a concrete history
(`set("x:y", 5)` then `delete("x")`). -/
theorem C1_witness : NodeCache.StInv (NodeCache.runOps (NodeCache.construct none)
    [NodeCache.Op.opSet "x:y" (JVal.vprim 5) none, NodeCache.Op.opDelete "x"]) :=
  C1_index_tree_sync none _ (by
    intro k v t hm
    simp only [List.mem_cons, List.not_mem_nil, or_false] at hm
    rcases hm with hm | hm
    · simp only [NodeCache.Op.opSet.injEq] at hm
      exact ⟨5, hm.2.1⟩
    · simp at hm)

/-- C9 (implicit claim): `set` is monotone on the key index — for every
state, key, value, ttl and previously indexed key `k2`, after `set`
(whether it returns normally or throws) `k2` is still indexed; `set` only
adds index entries and never removes any, so in particular overwriting a
branch path with a scalar leaves all previously indexed descendant keys in
the index. -/
theorem C9_set_monotone (c : NodeCache) (k : String) (v : JVal) (t : Option Nat)
    (k2 : String) (h : k2 ∈ c.keys) :
    k2 ∈ (NodeCache.set c k v t).state.keys := by
  cases hw : NodeCache.setWalk (JVal.vobj c.store) (jsSplit k) v with
  | none =>
    rw [NodeCache.set_eq_threw c k v t hw]
    exact NodeCache.addKey_mono c.keys k k2 h
  | some r =>
    obtain ⟨props, rfl⟩ := NodeCache.setWalk_root_obj (jsSplit k) c.store v r hw
    rw [NodeCache.set_eq_ok c k v t props hw]
    exact NodeCache.addKey_mono c.keys k k2 h

/-- C9 witness: after overwriting the branch `"a"` with a scalar, the
descendant key `"a:b"` is still indexed. -/
theorem C9_witness :
    "a:b" ∈ (NodeCache.set (NodeCache.construct none) "a:b" (JVal.vprim 1) none).state.keys
    ∧ "a:b" ∈ (NodeCache.set
        (NodeCache.set (NodeCache.construct none) "a:b" (JVal.vprim 1) none).state
        "a" (JVal.vprim 2) none).state.keys :=
  ⟨by decide,
   C9_set_monotone
     (NodeCache.set (NodeCache.construct none) "a:b" (JVal.vprim 1) none).state
     "a" (JVal.vprim 2) none "a:b" (by decide)⟩

/-- C10 (implicit claim): `get` and `has` are pure observers — for every
store state and key, the cache state after the call (value tree, key
index, default TTL, and pending timers alike) equals the state before it;
in particular neither call arms an expiration timer. -/
theorem C10_get_has_pure (c : NodeCache) (k : String) :
    (NodeCache.get c k).state = c ∧ (NodeCache.has c k).state = c := by
  constructor
  · unfold NodeCache.get
    by_cases hm : k ∈ c.keys
    · simp only [if_pos hm]
      cases hg : NodeCache.getWalk (JVal.vobj c.store) (jsSplit k) with
      | none => rfl
      | some r => rfl
    · simp only [if_neg hm]
      rfl
  · rfl

/-- C2 (amended).  Original claim: in any state, `set(k, v); get(k)`
returns `v` for every key and value.  This holds whenever `set` completes
without throwing (which it can do when the key's path crosses a stored
scalar — see `C2_counterexample`): if `set c k v t` returns normally with
state `c2`, then `get c2 k` returns exactly the stored value `v` (and
leaves the state unchanged). -/
theorem C2_roundtrip (c c2 : NodeCache) (k : String) (v : JVal) (t : Option Nat)
    (h : NodeCache.set c k v t = Outcome.ok () c2) :
    NodeCache.get c2 k = Outcome.ok (some v) c2 := by
  cases hw : NodeCache.setWalk (JVal.vobj c.store) (jsSplit k) v with
  | none =>
    rw [NodeCache.set_eq_threw c k v t hw] at h
    simp at h
  | some r =>
    obtain ⟨props, rfl⟩ := NodeCache.setWalk_root_obj (jsSplit k) c.store v r hw
    rw [NodeCache.set_eq_ok c k v t props hw] at h
    have h2 := h
    simp only [Outcome.ok.injEq, true_and] at h2
    subst h2
    unfold NodeCache.get
    rw [if_pos (show k ∈ (NodeCache.addKey c.keys k) from NodeCache.mem_addKey_self c.keys k)]
    rw [NodeCache.getWalk_of_resolve (jsSplit k) (JVal.vobj props) v
      (NodeCache.resolve_setWalk (jsSplit k) (JVal.vobj c.store) (JVal.vobj props) v hw)]

/-- C2 counterexample: with the scalar `1` stored at `"a"`, the call
`set("a:b", 2)` throws a `TypeError` instead of storing, and `get("a:b")`
on the resulting state also throws — it does not return `2`. -/
theorem C2_counterexample :
    (NodeCache.set
      (NodeCache.set (NodeCache.construct none) "a" (JVal.vprim 1) none).state
      "a:b" (JVal.vprim 2) none).isOk = false
    ∧ (NodeCache.get
        (NodeCache.set
          (NodeCache.set (NodeCache.construct none) "a" (JVal.vprim 1) none).state
          "a:b" (JVal.vprim 2) none).state "a:b").isOk = false := by
  decide

/-- C2 witness: the round-trip at `k = "a:b"`, `v = 7` on a fresh cache,
with the hypothesis (a normal `set` return) discharged by evaluation. -/
theorem C2_witness :
    NodeCache.get
      ⟨[("a", JVal.vobj [("b", JVal.vprim 7)])], ["a", "a:b"], none, []⟩ "a:b"
    = Outcome.ok (some (JVal.vprim 7))
      ⟨[("a", JVal.vobj [("b", JVal.vprim 7)])], ["a", "a:b"], none, []⟩ :=
  C2_roundtrip (NodeCache.construct none) _ "a:b" (JVal.vprim 7) none (by rfl)

/-- C3 (amended).  Original claim: every operation completes without
raising an error on every state and key, including keys crossing a stored
scalar.  In fact `get`, `set` and `delete` throw a `TypeError` when the
walk meets a scalar mid-path (see `C3_counterexample`); what holds is:
`has` and `clear` never throw, and `get`, `set` (any value, any ttl) and
`delete` complete normally whenever no nonempty proper stage of the key's
path resolves to a stored primitive (malformed keys with empty segments
and missing keys included). -/
theorem C3_no_throw (c : NodeCache) (k : String) (v : JVal) (t : Option Nat)
    (h : ∀ j, j < (jsSplit k).length → 1 ≤ j →
      NodeCache.primAtB (JVal.vobj c.store) (jsSplit k) j = false) :
    (NodeCache.get c k).isOk = true
    ∧ (NodeCache.set c k v t).isOk = true
    ∧ (NodeCache.delete c k).isOk = true
    ∧ (NodeCache.has c k).isOk = true
    ∧ (NodeCache.clear c).isOk = true := by
  have hcond : ∀ j, j < (jsSplit k).length →
      NodeCache.primAtB (JVal.vobj c.store) (jsSplit k) j = false := by
    intro j hj
    cases j with
    | zero => exact NodeCache.primAtB_zero_obj c.store (jsSplit k)
    | succ j2 => exact h (j2 + 1) hj (by omega)
  refine ⟨?_, ?_, ?_, rfl, rfl⟩
  · unfold NodeCache.get
    by_cases hm : k ∈ c.keys
    · rw [if_pos hm]
      have hnn := NodeCache.getWalk_no_throw (jsSplit k) (JVal.vobj c.store) hcond
      cases hg : NodeCache.getWalk (JVal.vobj c.store) (jsSplit k) with
      | none => exact absurd hg hnn
      | some r => rfl
    · rw [if_neg hm]
      rfl
  · have hnn := NodeCache.setWalk_no_throw (jsSplit k) v (JVal.vobj c.store)
      (jsSplit_ne_nil k) hcond
    cases hw : NodeCache.setWalk (JVal.vobj c.store) (jsSplit k) v with
    | none => exact absurd hw hnn
    | some r =>
      obtain ⟨props, rfl⟩ := NodeCache.setWalk_root_obj (jsSplit k) c.store v r hw
      rw [NodeCache.set_eq_ok c k v t props hw]
      rfl
  · have hnn := NodeCache.delWalk_no_throw (jsSplit k) (JVal.vobj c.store)
      (jsSplit_ne_nil k) hcond
    cases hw : NodeCache.delWalk (JVal.vobj c.store) (jsSplit k) with
    | none => exact absurd hw hnn
    | some r =>
      obtain ⟨props, rfl⟩ := NodeCache.delWalk_root_obj (jsSplit k) c.store r hw
      rw [NodeCache.delete_eq_ok c k props hw]
      rfl

/-- C3 counterexample: on the state holding the scalar `1` at `"a"`,
`get("a:b")` after an (itself throwing) `set("a:b", 2)`, and
`delete("a:b:c")`, all raise `TypeError` — the operations are not total on
every state and key. -/
theorem C3_counterexample :
    (NodeCache.delete
      (NodeCache.set (NodeCache.construct none) "a" (JVal.vprim 1) none).state
      "a:b:c").isOk = false
    ∧ (NodeCache.set
        (NodeCache.set (NodeCache.construct none) "a" (JVal.vprim 1) none).state
        "a:b" (JVal.vprim 2) none).isOk = false := by
  decide

/-- C3 witness: on the state holding `{a: {b: 1}}`, the key `"a:x"`
crosses no scalar, and all five operations complete normally. -/
theorem C3_witness :
    (∀ j, j < (jsSplit "a:x").length → 1 ≤ j →
      NodeCache.primAtB
        (JVal.vobj (NodeCache.set (NodeCache.construct none) "a:b" (JVal.vprim 1) none).state.store)
        (jsSplit "a:x") j = false)
    ∧ ((NodeCache.get (NodeCache.set (NodeCache.construct none) "a:b" (JVal.vprim 1) none).state "a:x").isOk = true
      ∧ (NodeCache.set (NodeCache.set (NodeCache.construct none) "a:b" (JVal.vprim 1) none).state "a:x" (JVal.vprim 9) none).isOk = true
      ∧ (NodeCache.delete (NodeCache.set (NodeCache.construct none) "a:b" (JVal.vprim 1) none).state "a:x").isOk = true
      ∧ (NodeCache.has (NodeCache.set (NodeCache.construct none) "a:b" (JVal.vprim 1) none).state "a:x").isOk = true
      ∧ (NodeCache.clear (NodeCache.set (NodeCache.construct none) "a:b" (JVal.vprim 1) none).state).isOk = true) :=
  ⟨by decide,
   C3_no_throw (NodeCache.set (NodeCache.construct none) "a:b" (JVal.vprim 1) none).state
     "a:x" (JVal.vprim 9) none (by decide)⟩

/-- C4 (amended).  Original claim: `set` overwrites a scalar found at an
intermediate segment, turning it into a mapping node that then carries the
path.  In fact no promotion happens: when a primitive sits at a nonempty
proper stage of the key's path, `set` throws a `TypeError`, the value tree
is left exactly unchanged (the old scalar survives, the new value is not
stored anywhere), and only the key index gains the key's prefixes. -/
theorem C4_no_promotion (c : NodeCache) (k : String) (v : JVal) (t : Option Nat)
    (j : Nat) (h1 : 1 ≤ j) (h2 : j < (jsSplit k).length)
    (h3 : NodeCache.primAtB (JVal.vobj c.store) (jsSplit k) j = true) :
    NodeCache.set c k v t = Outcome.threw { c with keys := NodeCache.addKey c.keys k } :=
  NodeCache.set_eq_threw c k v t
    (NodeCache.setWalk_none_of_prim (jsSplit k) (JVal.vobj c.store) v j h1 h2 h3)

/-- C4 counterexample: with `1` stored at `"a"`, after `set("a:b", 2)` the
intermediate segment `"a"` still resolves to the scalar `1` (not to a
mapping node), and `"a:b"` resolves to nothing — the claimed promotion and
storage do not happen (the call throws instead). -/
theorem C4_counterexample :
    (NodeCache.set
      (NodeCache.set (NodeCache.construct none) "a" (JVal.vprim 1) none).state
      "a:b" (JVal.vprim 2) none).isOk = false
    ∧ resolveNode
        (JVal.vobj (NodeCache.set
          (NodeCache.set (NodeCache.construct none) "a" (JVal.vprim 1) none).state
          "a:b" (JVal.vprim 2) none).state.store)
        (jsSplit "a") = some (JVal.vprim 1)
    ∧ resolveNode
        (JVal.vobj (NodeCache.set
          (NodeCache.set (NodeCache.construct none) "a" (JVal.vprim 1) none).state
          "a:b" (JVal.vprim 2) none).state.store)
        (jsSplit "a:b") = none :=
  ⟨by decide, by rfl, by rfl⟩

/-- C4 witness: the amended no-promotion behaviour on the concrete state
`{a: 1}` and key `"a:b"` (stage 1 of the path holds the scalar). -/
theorem C4_witness :
    (1 ≤ 1 ∧ 1 < (jsSplit "a:b").length
      ∧ NodeCache.primAtB
          (JVal.vobj (NodeCache.set (NodeCache.construct none) "a" (JVal.vprim 1) none).state.store)
          (jsSplit "a:b") 1 = true)
    ∧ NodeCache.set
        (NodeCache.set (NodeCache.construct none) "a" (JVal.vprim 1) none).state
        "a:b" (JVal.vprim 2) none
      = Outcome.threw
        { (NodeCache.set (NodeCache.construct none) "a" (JVal.vprim 1) none).state with
          keys := NodeCache.addKey
            (NodeCache.set (NodeCache.construct none) "a" (JVal.vprim 1) none).state.keys
            "a:b" } :=
  ⟨⟨le_refl 1, by decide, by decide⟩,
   C4_no_promotion
     (NodeCache.set (NodeCache.construct none) "a" (JVal.vprim 1) none).state
     "a:b" (JVal.vprim 2) none 1 (le_refl 1) (by decide) (by decide)⟩

namespace NodeCache

/-- Whether `delete` returns normally or throws, the key index afterwards
is exactly the string-filtered one. -/
theorem delete_state_keys (c : NodeCache) (key : String) :
    (delete c key).state.keys = deleteKey c.keys key := by
  cases hw : delWalk (JVal.vobj c.store) (jsSplit key) with
  | none =>
    rw [delete_eq_threw c key hw]
    rfl
  | some r =>
    obtain ⟨props, rfl⟩ := delWalk_root_obj (jsSplit key) c.store r hw
    rw [delete_eq_ok c key props hw]
    rfl

end NodeCache

/-- C5: cascading delete.  For every state and key, `delete(key)` removes
from the key index exactly `key` itself and every indexed key of the form
`key + ":" + rest` (all descendants), and excises the node at `key`'s path
from the value tree — afterwards the path resolves to nothing.  On the
concrete scenario, after `set("x:y:z", 1); delete("x:y")`, `has("x:y:z")`
is `false` and `has("x")` is `true`. -/
theorem C5_cascading_delete :
    (∀ (c : NodeCache) (key k2 : String),
      k2 ∈ (NodeCache.delete c key).state.keys ↔
        k2 ∈ c.keys ∧ k2 ≠ key ∧ ¬∃ r : String, k2 = key ++ ":" ++ r)
    ∧ (∀ (c : NodeCache) (key : String),
      resolveNode (JVal.vobj (NodeCache.delete c key).state.store) (jsSplit key) = none)
    ∧ NodeCache.has (NodeCache.runOps (NodeCache.construct none)
        [NodeCache.Op.opSet "x:y:z" (JVal.vprim 1) none,
         NodeCache.Op.opDelete "x:y"]) "x:y:z"
      = Outcome.ok false (NodeCache.runOps (NodeCache.construct none)
        [NodeCache.Op.opSet "x:y:z" (JVal.vprim 1) none,
         NodeCache.Op.opDelete "x:y"])
    ∧ NodeCache.has (NodeCache.runOps (NodeCache.construct none)
        [NodeCache.Op.opSet "x:y:z" (JVal.vprim 1) none,
         NodeCache.Op.opDelete "x:y"]) "x"
      = Outcome.ok true (NodeCache.runOps (NodeCache.construct none)
        [NodeCache.Op.opSet "x:y:z" (JVal.vprim 1) none,
         NodeCache.Op.opDelete "x:y"]) := by
  refine ⟨?_, ?_, by rfl, by rfl⟩
  · intro c key k2
    rw [NodeCache.delete_state_keys, NodeCache.mem_deleteKey]
    constructor
    · rintro ⟨hin, hnot⟩
      refine ⟨hin, ?_, ?_⟩
      · intro he
        exact hnot (Or.inl he)
      · intro hex
        exact hnot (Or.inr ((NodeCache.jsStartsWith_iff k2 key).mpr hex))
    · rintro ⟨hin, hne, hnex⟩
      refine ⟨hin, ?_⟩
      rintro (he | hsw)
      · exact hne he
      · exact hnex ((NodeCache.jsStartsWith_iff k2 key).mp hsw)
  · intro c key
    have hkill := NodeCache.delWalk_kills (jsSplit key) (jsSplit key)
      (JVal.vobj c.store) (jsSplit_ne_nil key) (List.prefix_refl _)
    cases hw : NodeCache.delWalk (JVal.vobj c.store) (jsSplit key) with
    | none =>
      rw [hw] at hkill
      rw [NodeCache.delete_eq_threw c key hw]
      exact hkill
    | some r =>
      obtain ⟨props, rfl⟩ := NodeCache.delWalk_root_obj (jsSplit key) c.store r hw
      rw [hw] at hkill
      rw [NodeCache.delete_eq_ok c key props hw]
      exact hkill

/-- C6 (amended).  Original claim: with default TTL `T`, `set(k, v)`
inherits `T`, while an explicit `ttl` argument — including `ttl = 0` —
makes `set` behave per the explicit value rather than the default.
Inheritance holds, and the *delay* of any armed timer is always taken from
the explicit value when one is given; but with `ttl = 0` the arming
decision still comes from the default's truthiness (`ttl ||
options.ttl`), so a zero-delay deletion is armed instead of no timer — see
`C6_counterexample`.  Precisely, with default `T > 0`: a normal
`set(k, v)` appends the pending timer `(k, T·1000)`; a normal
`set(k, v, t)` appends `(k, t·1000)` for every `t`, `t = 0` included; and
firing a pending timer `(k, d)` invokes exactly `delete(k)`. -/
theorem C6_default_ttl (c : NodeCache) (T : Nat) (hT : c.ttl = some T)
    (hpos : 0 < T) (k : String) (v : JVal) :
    (∀ c2, NodeCache.set c k v none = Outcome.ok () c2 →
      c2.timers = c.timers ++ [(k, T * 1000)])
    ∧ (∀ (t : Nat) (c2 : NodeCache), NodeCache.set c k v (some t) = Outcome.ok () c2 →
      c2.timers = c.timers ++ [(k, t * 1000)])
    ∧ (∀ (c3 : NodeCache) (d : Nat),
      NodeCache.fire c3 (k, d) = NodeCache.delete
        { c3 with timers := c3.timers.erase (k, d) } k) := by
  have harm : NodeCache.truthyNum c.ttl = true := by
    rw [hT]
    simp only [NodeCache.truthyNum]
    simp only [Bool.not_eq_true', beq_eq_false_iff_ne, ne_eq]
    omega
  refine ⟨?_, ?_, fun c3 d => rfl⟩
  · intro c2 h
    cases hw : NodeCache.setWalk (JVal.vobj c.store) (jsSplit k) v with
    | none =>
      rw [NodeCache.set_eq_threw c k v none hw] at h
      simp at h
    | some r =>
      obtain ⟨props, rfl⟩ := NodeCache.setWalk_root_obj (jsSplit k) c.store v r hw
      rw [NodeCache.set_eq_ok c k v none props hw] at h
      simp only [Outcome.ok.injEq, true_and] at h
      subst h
      have hne : T ≠ 0 := by omega
      simp [NodeCache.truthyNum, hT, hne]
  · intro t c2 h
    cases hw : NodeCache.setWalk (JVal.vobj c.store) (jsSplit k) v with
    | none =>
      rw [NodeCache.set_eq_threw c k v (some t) hw] at h
      simp at h
    | some r =>
      obtain ⟨props, rfl⟩ := NodeCache.setWalk_root_obj (jsSplit k) c.store v r hw
      rw [NodeCache.set_eq_ok c k v (some t) props hw] at h
      simp only [Outcome.ok.injEq, true_and] at h
      subst h
      have hne : T ≠ 0 := by omega
      simp [NodeCache.truthyNum, hT, hne]

/-- C6 counterexample: the explicit `ttl = 0` does not behave per the
explicit value independently of the default.  With default TTL `1`
configured, `set("k", v, 0)` arms a pending zero-delay deletion of `"k"`,
while the identical call on a cache with no default arms nothing — the
arming decision with `ttl = 0` is made by the default's truthiness, and
(contrary to §4's nonzero-effective-TTL condition) a timer is armed whose
effective TTL is `0`. -/
theorem C6_counterexample :
    (NodeCache.set (NodeCache.construct (some 1)) "k" (JVal.vprim 3) (some 0)).state.timers
      = [("k", 0)]
    ∧ (NodeCache.set (NodeCache.construct none) "k" (JVal.vprim 3) (some 0)).state.timers
      = [] := by
  constructor
  · rfl
  · rfl

/-- C6 witness: the amended TTL behaviour on a cache constructed with
default TTL `2`. -/
theorem C6_witness :
    ((NodeCache.construct (some 2)).ttl = some 2 ∧ 0 < 2)
    ∧ ((∀ c2, NodeCache.set (NodeCache.construct (some 2)) "k" (JVal.vprim 1) none
          = Outcome.ok () c2 → c2.timers = (NodeCache.construct (some 2)).timers ++ [("k", 2 * 1000)])
      ∧ (∀ (t : Nat) (c2 : NodeCache),
          NodeCache.set (NodeCache.construct (some 2)) "k" (JVal.vprim 1) (some t)
          = Outcome.ok () c2 → c2.timers = (NodeCache.construct (some 2)).timers ++ [("k", t * 1000)])
      ∧ (∀ (c3 : NodeCache) (d : Nat),
          NodeCache.fire c3 ("k", d) = NodeCache.delete
            { c3 with timers := c3.timers.erase ("k", d) } "k")) :=
  ⟨⟨rfl, by decide⟩,
   C6_default_ttl (NodeCache.construct (some 2)) 2 rfl (by decide) "k" (JVal.vprim 1)⟩

/-- C7: branch fetch / hierarchical shadowing.  Whenever the key is
indexed and its path resolves to an intermediate mapping node, `get`
returns that entire sub-mapping as the value; in particular after
`set("a:b", 1); set("a:c", 2)`, `get("a")` returns the mapping exposing
both `b ↦ 1` and `c ↦ 2`. -/
theorem C7_branch_fetch :
    (∀ (c : NodeCache) (key : String) (m : List (String × JVal)),
      key ∈ c.keys →
      resolveNode (JVal.vobj c.store) (jsSplit key) = some (JVal.vobj m) →
      NodeCache.get c key = Outcome.ok (some (JVal.vobj m)) c)
    ∧ NodeCache.get (NodeCache.runOps (NodeCache.construct none)
        [NodeCache.Op.opSet "a:b" (JVal.vprim 1) none,
         NodeCache.Op.opSet "a:c" (JVal.vprim 2) none]) "a"
      = Outcome.ok (some (JVal.vobj [("b", JVal.vprim 1), ("c", JVal.vprim 2)]))
        (NodeCache.runOps (NodeCache.construct none)
          [NodeCache.Op.opSet "a:b" (JVal.vprim 1) none,
           NodeCache.Op.opSet "a:c" (JVal.vprim 2) none]) := by
  constructor
  · intro c key m hmem hres
    unfold NodeCache.get
    rw [if_pos hmem,
      NodeCache.getWalk_of_resolve (jsSplit key) (JVal.vobj c.store) (JVal.vobj m) hres]
  · rfl

/-- C7 witness: the general branch-fetch statement applied to the concrete
two-insert state at key `"a"`. -/
theorem C7_witness :
    ("a" ∈ (NodeCache.runOps (NodeCache.construct none)
        [NodeCache.Op.opSet "a:b" (JVal.vprim 1) none,
         NodeCache.Op.opSet "a:c" (JVal.vprim 2) none]).keys
      ∧ resolveNode (JVal.vobj (NodeCache.runOps (NodeCache.construct none)
          [NodeCache.Op.opSet "a:b" (JVal.vprim 1) none,
           NodeCache.Op.opSet "a:c" (JVal.vprim 2) none]).store) (jsSplit "a")
        = some (JVal.vobj [("b", JVal.vprim 1), ("c", JVal.vprim 2)]))
    ∧ NodeCache.get (NodeCache.runOps (NodeCache.construct none)
        [NodeCache.Op.opSet "a:b" (JVal.vprim 1) none,
         NodeCache.Op.opSet "a:c" (JVal.vprim 2) none]) "a"
      = Outcome.ok (some (JVal.vobj [("b", JVal.vprim 1), ("c", JVal.vprim 2)]))
        (NodeCache.runOps (NodeCache.construct none)
          [NodeCache.Op.opSet "a:b" (JVal.vprim 1) none,
           NodeCache.Op.opSet "a:c" (JVal.vprim 2) none]) :=
  ⟨⟨by decide, by rfl⟩,
   C7_branch_fetch.1 (NodeCache.runOps (NodeCache.construct none)
       [NodeCache.Op.opSet "a:b" (JVal.vprim 1) none,
        NodeCache.Op.opSet "a:c" (JVal.vprim 2) none]) "a"
     [("b", JVal.vprim 1), ("c", JVal.vprim 2)] (by decide) (by rfl)⟩

/-- C8 (amended).  Original claim: deleting a non-present key never throws
and leaves both structures unchanged.  Neither half is unconditional (see
`C8_counterexample`): unindexed paths can still resolve inside stored
object values, in which case `delete` excises them, and a path crossing a
stored scalar makes `delete` throw.  What holds: `delete(k)` returns
normally and leaves the cache state exactly unchanged whenever `k` is not
indexed, no indexed key extends `k + ":"`, `k`'s path does not resolve in
the value tree, and no nonempty proper stage of the path resolves to a
stored primitive. -/
theorem C8_idempotent_delete (c : NodeCache) (k : String)
    (h1 : k ∉ c.keys)
    (h2 : ∀ k2 ∈ c.keys, ¬(jsStartsWith k2 (k ++ ":") = true))
    (h3 : resolveNode (JVal.vobj c.store) (jsSplit k) = none)
    (h4 : ∀ j, j < (jsSplit k).length → 1 ≤ j →
      NodeCache.primAtB (JVal.vobj c.store) (jsSplit k) j = false) :
    NodeCache.delete c k = Outcome.ok () c := by
  have hcond : ∀ j, j < (jsSplit k).length →
      NodeCache.primAtB (JVal.vobj c.store) (jsSplit k) j = false := by
    intro j hj
    cases j with
    | zero => exact NodeCache.primAtB_zero_obj c.store (jsSplit k)
    | succ j2 => exact h4 (j2 + 1) hj (by omega)
  have hid := NodeCache.delWalk_id_of_unresolved (jsSplit k) c.store
    (jsSplit_ne_nil k) h3 hcond
  rw [NodeCache.delete_eq_ok c k c.store hid]
  have hkeys : NodeCache.deleteKey c.keys k = c.keys := by
    unfold NodeCache.deleteKey
    refine List.filter_eq_self.mpr ?_
    intro a ha
    have hne : a ≠ k := fun he => h1 (he ▸ ha)
    have hsw : jsStartsWith a (k ++ ":") = false := by
      cases hb : jsStartsWith a (k ++ ":") with
      | false => rfl
      | true => exact absurd hb (h2 a ha)
    simp [hne, hsw]
  rw [hkeys]

/-- C8 counterexample: two reachable states refute the unconditional
claim.  After `set("a", {b: 1})` the key `"a:b"` is not indexed, yet
`delete("a:b")` returns normally and changes the value tree (the path
`a:b` resolved before the call and no longer does after).  After
`set("a", 1)` the key `"a:b:c"` is not indexed, yet `delete("a:b:c")`
throws a `TypeError`. -/
theorem C8_counterexample :
    ("a:b" ∉ (NodeCache.set (NodeCache.construct none) "a"
        (JVal.vobj [("b", JVal.vprim 1)]) none).state.keys)
    ∧ (NodeCache.delete (NodeCache.set (NodeCache.construct none) "a"
        (JVal.vobj [("b", JVal.vprim 1)]) none).state "a:b").isOk = true
    ∧ (resolveNode (JVal.vobj (NodeCache.set (NodeCache.construct none) "a"
        (JVal.vobj [("b", JVal.vprim 1)]) none).state.store)
        (jsSplit "a:b")).isSome = true
    ∧ (resolveNode (JVal.vobj (NodeCache.delete
        (NodeCache.set (NodeCache.construct none) "a"
          (JVal.vobj [("b", JVal.vprim 1)]) none).state "a:b").state.store)
        (jsSplit "a:b")).isSome = false
    ∧ ("a:b:c" ∉ (NodeCache.set (NodeCache.construct none) "a"
        (JVal.vprim 1) none).state.keys)
    ∧ (NodeCache.delete (NodeCache.set (NodeCache.construct none) "a"
        (JVal.vprim 1) none).state "a:b:c").isOk = false := by
  refine ⟨by decide, by decide, by decide, by decide, by decide, by decide⟩

/-- C8 witness: deleting the absent key `"z"` on the state holding
`{x: {y: 1}}` is a true no-op returning normally. -/
theorem C8_witness :
    (("z" ∉ (NodeCache.set (NodeCache.construct none) "x:y" (JVal.vprim 1) none).state.keys)
      ∧ (∀ k2 ∈ (NodeCache.set (NodeCache.construct none) "x:y" (JVal.vprim 1) none).state.keys,
          ¬(jsStartsWith k2 ("z" ++ ":") = true))
      ∧ resolveNode (JVal.vobj (NodeCache.set (NodeCache.construct none) "x:y"
          (JVal.vprim 1) none).state.store) (jsSplit "z") = none
      ∧ (∀ j, j < (jsSplit "z").length → 1 ≤ j →
          NodeCache.primAtB (JVal.vobj (NodeCache.set (NodeCache.construct none) "x:y"
            (JVal.vprim 1) none).state.store) (jsSplit "z") j = false))
    ∧ NodeCache.delete
        (NodeCache.set (NodeCache.construct none) "x:y" (JVal.vprim 1) none).state "z"
      = Outcome.ok ()
        (NodeCache.set (NodeCache.construct none) "x:y" (JVal.vprim 1) none).state :=
  ⟨⟨by decide, by decide, by rfl, by decide⟩,
   C8_idempotent_delete
     (NodeCache.set (NodeCache.construct none) "x:y" (JVal.vprim 1) none).state
     "z" (by decide) (by decide) (by rfl) (by decide)⟩
